import Mathlib

/-!
Verification development for the Hamlib-UI core (`src/Hamlib_UI.py`).

The Python source is shallowly embedded: pure helpers (`parse_rig_list`,
`parse_device_list`, the asset-selection logic of `download_latest_release`,
`get_latest_bin_dir`, `find_exe`) become Lean functions over explicit data;
the filesystem is a tree of named nodes, process spawning and the network
download of the installer become explicit outcome parameters, and the
per-kind mutable state of the Qt runner becomes explicit state passing.  Numeric ids are `Int`
(Python ints), strings are Lean `String`s over their character lists.
The whitespace and integer-literal conventions of Python are modelled for the
character ranges the program meets (the model covers the ASCII and common
Unicode whitespace set; `int` digits are modelled as ASCII decimal digits).
-/

namespace HamlibUI

/-- Characters Python treats as whitespace: used by `str.strip`, by the
regular-expression class in `re.split` of two-or-more whitespace, and by
the surrounding-whitespace tolerance of int. -/
def isPySpace (c : Char) : Bool :=
  c == ' ' || c == '\t' || c == '\n' || c == '\r' || c == '\x0b' || c == '\x0c' ||
  c == '\x1c' || c == '\x1d' || c == '\x1e' || c == '\x1f' || c == '\x85' || c == '\xa0' ||
  c == '\u1680' || ('\u2000' ≤ c && c ≤ '\u200a') || c == '\u2028' || c == '\u2029' ||
  c == '\u202f' || c == '\u205f' || c == '\u3000'

/-- Characters that `str.splitlines` in Python breaks lines at (with `\r\n`
treated as a single break, handled separately). -/
def isLineBreakChar (c : Char) : Bool :=
  c == '\n' || c == '\r' || c == '\x0b' || c == '\x0c' || c == '\x1c' || c == '\x1d' ||
  c == '\x1e' || c == '\x85' || c == '\u2028' || c == '\u2029'

/-- Worker for `splitLinesPy`: `cur` is the reversed current line. -/
def splitLinesChars (cur : List Char) : List Char → List (List Char)
  | [] => if cur.isEmpty then [] else [cur.reverse]
  | '\r' :: '\n' :: rest => cur.reverse :: splitLinesChars [] rest
  | c :: rest =>
    if isLineBreakChar c then cur.reverse :: splitLinesChars [] rest
    else splitLinesChars (c :: cur) rest

/-- Python `str.splitlines`: no trailing empty line for a trailing break. -/
def splitLinesPy (s : String) : List String :=
  (splitLinesChars [] s.data).map (fun l => ⟨l⟩)

/-- Python `str.strip` on a character list. -/
def pyStripChars (l : List Char) : List Char :=
  ((l.dropWhile isPySpace).reverse.dropWhile isPySpace).reverse

/-- Python `str.strip`. -/
def pyStrip (s : String) : String := ⟨pyStripChars s.data⟩

/-- Worker for splitting on runs of two-or-more whitespace characters
(Python `re.split` with a two-or-more whitespace pattern).  `cur` is the
reversed current field; `pend` is the reversed run of whitespace seen since
the last non-whitespace character and not yet classified.  A pending run of
length one stays inside the field; a pending run of length at least two is
a maximal separator (the regex is greedy, so the maximal run is exactly
what one match consumes). -/
def splitWs2Go (cur : List Char) (pend : List Char) : List Char → List (List Char)
  | [] =>
    match pend with
    | [] => [cur.reverse]
    | [w] => [(w :: cur).reverse]
    | _ => [cur.reverse, []]
  | c :: rest =>
    if isPySpace c then splitWs2Go cur (c :: pend) rest
    else
      match pend with
      | [] => splitWs2Go (c :: cur) [] rest
      | [w] => splitWs2Go (c :: w :: cur) [] rest
      | _ => cur.reverse :: splitWs2Go [c] [] rest

/-- Model of `re.split` on runs of two-or-more whitespace, as applied to each data
line by `parse_rig_list` and `parse_device_list`. -/
def splitWs2Str (s : String) : List String :=
  (splitWs2Go [] [] s.data).map (fun l => ⟨l⟩)

/-- ASCII decimal digit test. -/
def isDigitChar (c : Char) : Bool := '0' ≤ c && c ≤ '9'

/-- Numeric value of an ASCII digit. -/
def digitVal (c : Char) : Nat := c.toNat - '0'.toNat

/-- Digits of a Python integer literal after the first digit: single
underscores are allowed between digits only. -/
def pyIntDigits (acc : Nat) : List Char → Option Nat
  | [] => some acc
  | '_' :: c :: rest =>
    if isDigitChar c then pyIntDigits (acc * 10 + digitVal c) rest else none
  | c :: rest =>
    if isDigitChar c then pyIntDigits (acc * 10 + digitVal c) rest else none

/-- Magnitude part of a Python integer literal: must start with a digit. -/
def pyIntMag : List Char → Option Nat
  | [] => none
  | c :: rest => if isDigitChar c then pyIntDigits (digitVal c) rest else none

/-- Sign handling of Python `int`. -/
def pyIntCore : List Char → Option Int
  | '+' :: rest => (pyIntMag rest).map Int.ofNat
  | '-' :: rest => (pyIntMag rest).map (fun n => -(Int.ofNat n))
  | l => (pyIntMag l).map Int.ofNat

/-- Python `int(s)` (base 10, ASCII digits): strips surrounding whitespace,
accepts an optional sign, then digits with single interior underscores;
`none` models the `ValueError` the source catches. -/
def pyInt? (s : String) : Option Int := pyIntCore (pyStripChars s.data)

/-- Does the character list starting here begin with the pattern? -/
def startsWithChars : List Char → List Char → Bool
  | [], _ => true
  | _ :: _, [] => false
  | p :: ps, c :: cs => p == c && startsWithChars ps cs

/-- Substring test on character lists (used for regex literal searches). -/
def containsChars (pat : List Char) : List Char → Bool
  | [] => pat.isEmpty
  | c :: rest => startsWithChars pat (c :: rest) || containsChars pat rest

/-- Lower-casing as Python `str.lower` on the ASCII range. -/
def pyLowerChars (l : List Char) : List Char := l.map Char.toLower

/-- Suffix test on character lists. -/
def endsWithChars (suf : List Char) (l : List Char) : Bool :=
  startsWithChars suf.reverse l.reverse

/-- Match of the rig header regex (literal "Rig", any run of whitespace,
then a hash) starting exactly at the head of the list.  The whitespace run
is greedy; since no whitespace character is a hash, greedy matching without
backtracking is exact. -/
def rigHeaderAt (l : List Char) : Bool :=
  match l with
  | 'R' :: 'i' :: 'g' :: rest => (rest.dropWhile isPySpace).head? == some '#'
  | _ => false

/-- Model of `re.search` of the rig header pattern anywhere in the line. -/
def searchRigHeader : List Char → Bool
  | [] => false
  | c :: rest => rigHeaderAt (c :: rest) || searchRigHeader rest

/-- The header test of `parse_rig_list`. -/
def rigHeaderMatch (s : String) : Bool := searchRigHeader s.data

/-- The case-insensitive header test of `parse_device_list`: any of the four
literals occurring in the line (the regex alternation under re.I reduces to
a lowercased substring test for these ASCII literals). -/
def devHeaderMatch (s : String) : Bool :=
  let low := pyLowerChars s.data
  containsChars "rotator".data low || containsChars "amplifier".data low ||
  containsChars "device".data low || containsChars "model".data low

/-- A parsed hardware record, as built by both list parsers. -/
structure HardwareRecord where
  id : Int
  mfg : String
  model : String
  label : String
deriving DecidableEq

/-- The shared data-line body of `parse_rig_list` and `parse_device_list`
(the two Python loops are textually identical): skip blank lines, split on
two-or-more whitespace, require at least three fields and an integer first
field, then build the record with its display label. -/
def parseDataLine (line : String) : Option HardwareRecord :=
  if pyStrip line = "" then none
  else
    let parts := splitWs2Str (pyStrip line)
    if parts.length < 3 then none
    else
      match pyInt? (parts.headD "") with
      | none => none
      | some rid =>
        let mfg := pyStrip (parts.getD 1 "")
        let model := pyStrip (parts.getD 2 "")
        some { id := rid, mfg := mfg, model := model, label := mfg ++ " - " ++ model }

/-- Index of the first data line: one past the first header match, or the
first line when no line matches (the `start = 0` initialisation). -/
def startIdxWith (p : String → Bool) (lines : List String) : Nat :=
  match lines.findIdx? p with
  | some i => i + 1
  | none => 0

/-- The common shape of both parsers: all lines after the header index are
the data region, each processed by `parseDataLine`. -/
def parseLinesWith (p : String → Bool) (lines : List String) : List HardwareRecord :=
  (lines.drop (startIdxWith p lines)).filterMap parseDataLine

/-- Embedding of `parse_rig_list` from the source. -/
def parse_rig_list (text : String) : List HardwareRecord :=
  parseLinesWith rigHeaderMatch (splitLinesPy text)

/-- Embedding of `parse_device_list` from the source. -/
def parse_device_list (text : String) : List HardwareRecord :=
  parseLinesWith devHeaderMatch (splitLinesPy text)

/-! ## Filesystem model and the resolver (`get_latest_bin_dir`, `find_exe`)

The installation root `HAMLIB_DIR` is modelled as `Option` of its list of
named child entries (`none` when the directory does not exist).  A node is
a file with byte content or a directory with a modification time and an
ordered list of named children; the listing order models the order
`Path.iterdir` and `os.walk` produce entries in. -/

/-- A filesystem node: file content as bytes, or a directory with its
modification time and ordered named children. -/
inductive PNode where
  | file (content : List Nat)
  | dir (mtime : Int) (children : List (String × PNode))

mutual
/-- Structural Boolean equality on filesystem nodes. -/
def pnodeBeq : PNode → PNode → Bool
  | .file a, .file b => a == b
  | .dir m a, .dir m2 b => m == m2 && pnodeListBeq a b
  | .file _, .dir _ _ => false
  | .dir _ _, .file _ => false

/-- Structural Boolean equality on child lists. -/
def pnodeListBeq : List (String × PNode) → List (String × PNode) → Bool
  | [], [] => true
  | (n, a) :: ra, (n2, b) :: rb => n == n2 && pnodeBeq a b && pnodeListBeq ra rb
  | [], _ :: _ => false
  | _ :: _, [] => false
end

mutual
/-- The test `pnodeBeq` decides equality of nodes. -/
theorem pnodeBeq_iff : ∀ a b : PNode, pnodeBeq a b = true ↔ a = b
  | .file a, .file b => by simp [pnodeBeq]
  | .dir m a, .dir m2 b => by
    simp only [pnodeBeq, Bool.and_eq_true, beq_iff_eq, PNode.dir.injEq]
    exact and_congr Iff.rfl (pnodeListBeq_iff a b)
  | .file _, .dir _ _ => by simp [pnodeBeq]
  | .dir _ _, .file _ => by simp [pnodeBeq]

/-- The test `pnodeListBeq` decides equality of child lists. -/
theorem pnodeListBeq_iff : ∀ a b : List (String × PNode), pnodeListBeq a b = true ↔ a = b
  | [], [] => by simp [pnodeListBeq]
  | (n, a) :: ra, (n2, b) :: rb => by
    simp only [pnodeListBeq, Bool.and_eq_true, beq_iff_eq, List.cons.injEq, Prod.mk.injEq]
    rw [pnodeBeq_iff a b, pnodeListBeq_iff ra rb]
    try tauto
  | [], _ :: _ => by simp [pnodeListBeq]
  | _ :: _, [] => by simp [pnodeListBeq]
end

instance : DecidableEq PNode := fun a b =>
  if h : pnodeBeq a b = true then .isTrue ((pnodeBeq_iff a b).mp h)
  else .isFalse (fun he => h ((pnodeBeq_iff a b).mpr he))

/-- The children of the installation root, when it exists. -/
abbrev RootFs := Option (List (String × PNode))

/-- First child entry with the given name (`Path` lookup one level down). -/
def childNamed (cs : List (String × PNode)) (n : String) : Option PNode :=
  (cs.find? (fun e => e.1 == n)).map (fun e => e.2)

/-- Model of `Path.exists` of a relative path below a node (true for files and
directories alike, as in Python). -/
def pathExists (node : PNode) : List String → Bool
  | [] => true
  | n :: rest =>
    match node with
    | .file _ => false
    | .dir _ cs =>
      match childNamed cs n with
      | none => false
      | some c => pathExists c rest

/-- Model of `Path.exists` of a relative path below the child list of the root. -/
def pathExistsIn (cs : List (String × PNode)) : List String → Bool
  | [] => true
  | n :: rest =>
    match childNamed cs n with
    | none => false
    | some c => pathExists c rest

/-- Model of `p.stat().st_mtime` for the nodes the source takes it of (candidate
subdirectories). -/
def nodeMtime : PNode → Int
  | .file _ => 0
  | .dir m _ => m

/-- Python `max(candidates, key=mtime)`: the first entry of maximal key. -/
def maxByMtime (c : String × PNode) (rest : List (String × PNode)) : String × PNode :=
  rest.foldl (fun best x => if nodeMtime x.2 > nodeMtime best.2 then x else best) c

/-- Embedding of `get_latest_bin_dir` from the source: candidate immediate entries are
those below which `bin/rigctld.exe` exists; the first most-recently
modified candidate wins; otherwise the own `bin/rigctld.exe` of the root is
checked; otherwise `None`.  Paths are relative to the installation root. -/
def get_latest_bin_dir (root : RootFs) : Option (List String) :=
  match root with
  | none => none
  | some cs =>
    match cs.filter (fun e => pathExists e.2 ["bin", "rigctld.exe"]) with
    | c :: rest => some [(maxByMtime c rest).1, "bin"]
    | [] =>
      if pathExistsIn cs ["bin", "rigctld.exe"] then some ["bin"] else none

/-- Is this entry a file with the given name (the `name in files` test of
the `os.walk` loop, which looks only among regular files)? -/
def isFileNamed (n : String) (e : String × PNode) : Bool :=
  e.1 == n && (match e.2 with | .file _ => true | .dir _ _ => false)

mutual
/-- Model of `os.walk` from one node, top-down: files of the current directory are
checked first, then each child directory is walked in listing order; the
first directory containing a file of the requested name wins. -/
def walkNode (name : String) (base : List String) : PNode → Option (List String)
  | .file _ => none
  | .dir _ cs =>
    if cs.any (isFileNamed name) then some (base ++ [name])
    else walkKids name base cs

/-- Walk each child entry in order, returning the first hit. -/
def walkKids (name : String) (base : List String) : List (String × PNode) → Option (List String)
  | [] => none
  | (n, c) :: rest =>
    match walkNode name (base ++ [n]) c with
    | some r => some r
    | none => walkKids name base rest
end

/-- Model of `os.walk` over the installation root (yields nothing when the root
does not exist, so the loop finds nothing). -/
def walkRoot (root : RootFs) (name : String) : Option (List String) :=
  match root with
  | none => none
  | some cs =>
    if cs.any (isFileNamed name) then some [name]
    else walkKids name [] cs

/-- Embedding of `find_exe` from the source: look the requested name up inside the
directory chosen by `get_latest_bin_dir`; when that misses, fall back to a
full recursive walk of the root. -/
def find_exe (root : RootFs) (name : String) : Option (List String) :=
  match get_latest_bin_dir root with
  | some bd =>
    if pathExistsIn (root.getD []) (bd ++ [name]) then some (bd ++ [name])
    else walkRoot root name
  | none => walkRoot root name

/-- Modelled from the spec and the words of claim C5 (the claimed resolution
order, for comparison with `find_exe`): candidate sub-trees are those whose
`bin/` holds the *named* executable; the most recently modified candidate
wins; else the own `bin/` of the root holding the name; else the first match of
a full recursive walk. -/
def resolveSpec (root : RootFs) (name : String) : Option (List String) :=
  match root with
  | none => none
  | some cs =>
    match cs.filter (fun e => pathExists e.2 ["bin", name]) with
    | c :: rest => some [(maxByMtime c rest).1, "bin", name]
    | [] =>
      if pathExistsIn cs ["bin", name] then some ["bin", name]
      else walkRoot root name

/-! ## Release installer (`download_latest_release`)

The network is abstracted: asset selection consumes the decoded release
descriptor; the streamed download is an outcome (complete content, failure
after writing a partial content, or failure before the file is opened);
archive extraction is a function from archive bytes to the extracted
entries, `none` modelling a `zipfile` error. -/

/-- A release asset as consumed from the JSON descriptor. -/
structure Asset where
  name : String
  browser_download_url : String
deriving DecidableEq

/-- The release descriptor fields the source reads. -/
structure Release where
  assets : List Asset
  zipball_url : Option String
  tag_name : Option String
deriving DecidableEq

/-- The test of the source, name lowercased ending in the zip suffix. -/
def isZipName (s : String) : Bool := endsWithChars ".zip".data (pyLowerChars s.data)

/-- The test of the source, the platform marker occurring in the lowercased name. -/
def hasW64 (s : String) : Bool := containsChars "w64".data (pyLowerChars s.data)

/-- The asset-selection logic of `download_latest_release`: the first asset
whose lowercased name ends in `.zip` and contains `w64`; else the first
asset whose lowercased name ends in `.zip`; else the source `zipball_url`
with a synthesised archive name.  Returns download url and file name, or
`none` when even the fallback url is absent (the source then passes `None`
to the HTTP layer and the attempt fails). -/
def selectAsset (rel : Release) : Option (String × String) :=
  match rel.assets.find? (fun a => isZipName a.name && hasW64 a.name) with
  | some a => some (a.browser_download_url, a.name)
  | none =>
    match rel.assets.find? (fun a => isZipName a.name) with
    | some a => some (a.browser_download_url, a.name)
    | none =>
      match rel.zipball_url with
      | some u => some (u, "hamlib-" ++ rel.tag_name.getD "latest" ++ ".zip")
      | none => none

/-- Modelled from the spec and the words of claim C6 (the claimed ordered
preference, for comparison with `selectAsset`): first any asset whose name
indicates the target platform family, else any `.zip`-suffixed asset, else
the generic source archive. -/
def selectAssetClaim (rel : Release) : Option (String × String) :=
  match rel.assets.find? (fun a => hasW64 a.name) with
  | some a => some (a.browser_download_url, a.name)
  | none =>
    match rel.assets.find? (fun a => isZipName a.name) with
    | some a => some (a.browser_download_url, a.name)
    | none =>
      match rel.zipball_url with
      | some u => some (u, "hamlib-" ++ rel.tag_name.getD "latest" ++ ".zip")
      | none => none

/-- Outcome of the streamed download of the chosen asset. -/
inductive DlOutcome where
  | ok (content : List Nat)
  | failAfter (partialContent : List Nat)
  | failBeforeOpen
deriving DecidableEq

/-- One observable step of the install procedure, in execution order. -/
inductive InstallAction where
  | wroteDest (name : String) (content : List Nat)
  | downloadCompleted
  | clearedEntry (name : String)
  | extracted (content : List Nat)
deriving DecidableEq

/-- Result of one install attempt: final root contents, success flag, and
the ordered trace of observable steps. -/
structure InstallResult where
  fs : List (String × PNode)
  ok : Bool
  trace : List InstallAction
deriving DecidableEq

/-- Model of opening the destination for binary writing and writing `content` to it: replaces an existing
file entry of that name in place, appends a new entry otherwise, and fails
(returning `none`, the raised `IsADirectoryError`) when the destination
name is an existing directory. -/
def writeDest (cs : List (String × PNode)) (n : String) (content : List Nat) :
    Option (List (String × PNode)) :=
  match cs with
  | [] => some [(n, .file content)]
  | (n2, node) :: rest =>
    if n2 == n then
      match node with
      | .file _ => some ((n2, .file content) :: rest)
      | .dir _ _ => none
    else
      (writeDest rest n content).map (fun cs2 => (n2, node) :: cs2)

/-- Model of `zipfile.extractall` writing one extracted entry: replaces an existing
entry of the same name, appends otherwise. -/
def setEntry (cs : List (String × PNode)) (n : String) (node : PNode) :
    List (String × PNode) :=
  match cs with
  | [] => [(n, node)]
  | (n2, old) :: rest =>
    if n2 == n then (n2, node) :: rest
    else (n2, old) :: setEntry rest n node

/-- Extract all archive entries over the current root contents. -/
def mergeEntries (cs : List (String × PNode)) (entries : List (String × PNode)) :
    List (String × PNode) :=
  entries.foldl (fun acc e => setEntry acc e.1 e.2) cs

/-- The extraction step of `download_latest_release`: reads the archive
bytes back from the cleared root (`cs3`), extracts them over it on success,
and reports failure on a `zipfile` error; `tr` is the trace accumulated by
the preceding steps. -/
def extractPhase (cs3 : List (String × PNode)) (assetName : String)
    (tr : List InstallAction)
    (extractFn : List Nat → Option (List (String × PNode))) : InstallResult :=
  match childNamed cs3 assetName with
  | some (.file c) =>
    match extractFn c with
    | none => { fs := cs3, ok := false, trace := tr }
    | some entries =>
      { fs := mergeEntries cs3 entries, ok := true, trace := tr ++ [.extracted c] }
  | _ => { fs := cs3, ok := false, trace := tr }

/-- The install steps of `download_latest_release` after asset selection:
`ensure_hamlib_dir`, stream the download into the destination file, then —
only when the download completed — delete every root entry except the
destination, extract the archive over the root, and report success.  Any
exception is caught and reported as failure with the filesystem as it
stands.  `extractFn` models `zipfile.ZipFile(...).extractall` on the
destination bytes (`none` = archive error). -/
def installFromAsset (root : RootFs) (assetName : String) (dl : DlOutcome)
    (extractFn : List Nat → Option (List (String × PNode))) : InstallResult :=
  let cs1 := root.getD []
  match dl with
  | .failBeforeOpen => { fs := cs1, ok := false, trace := [] }
  | .failAfter partialContent =>
    match writeDest cs1 assetName partialContent with
    | none => { fs := cs1, ok := false, trace := [] }
    | some cs2 =>
      { fs := cs2, ok := false, trace := [.wroteDest assetName partialContent] }
  | .ok content =>
    match writeDest cs1 assetName content with
    | none => { fs := cs1, ok := false, trace := [] }
    | some cs2 =>
      let removed := (cs2.filter (fun e => !(e.1 == assetName))).map (fun e => e.1)
      let cs3 := cs2.filter (fun e => e.1 == assetName)
      let tr := .wroteDest assetName content :: .downloadCompleted ::
        removed.map .clearedEntry
      extractPhase cs3 assetName tr extractFn

/-! ## Process supervisor (`HamlibRunner`)

Per daemon kind the runner owns `self.process`, an optional process handle
(modelled by its pid).  `start`, the reader thread and `stop` become
functions from the relevant inputs to the successor handle state, the Qt
signals emitted, the pids spawned and the termination signals sent.
Resolution of the executable and the outcome of `subprocess.Popen` are
explicit parameters. -/

/-- A Qt signal emission of the runner. -/
inductive RunnerEvent where
  | output (line : String)
  | started
  | stopped
deriving DecidableEq

/-- Effect of one runner operation: successor handle state, signals
emitted in order, pids spawned, termination signals sent. -/
structure RunnerStep where
  process : Option Nat
  events : List RunnerEvent
  spawned : List Nat
  signals : List Nat
deriving DecidableEq

namespace HamlibRunner

/-- Embedding of `HamlibRunner.start` from the source: an existing handle makes the call
a no-op that only reports "Already running"; otherwise a failed executable
resolution reports not-found; otherwise `Popen` either yields a handle
(with the `started` signal and a freshly spawned reader) or raises, which
is reported and leaves no handle. -/
def start (process : Option Nat) (exe_path : Option (List String))
    (spawnOutcome : Option Nat) (exe_name : String) : RunnerStep :=
  match process with
  | some p =>
    { process := some p, events := [.output "Already running"], spawned := [], signals := [] }
  | none =>
    match exe_path with
    | none =>
      { process := none, events := [.output (exe_name ++ " not found!")],
        spawned := [], signals := [] }
    | some _ =>
      match spawnOutcome with
      | some pid =>
        { process := some pid, events := [.started], spawned := [pid], signals := [] }
      | none =>
        { process := none, events := [.output "Failed to start"],
          spawned := [], signals := [] }

/-- Embedding of the reader thread from the source: emits each output line
as it arrives and, in the `finally` block after end-of-stream and the
process wait, clears the handle and emits `stopped` — the sole place the
handle is cleared and the sole emitter of `stopped`. -/
def readerThread (outputLines : List String) : RunnerStep :=
  { process := none, events := outputLines.map .output ++ [.stopped],
    spawned := [], signals := [] }

/-- Embedding of `HamlibRunner.stop` from the source: with a handle present it sends a
termination signal and returns at once — no signal emission, no handle
change; without one it is a complete no-op. -/
def stop (process : Option Nat) : RunnerStep :=
  match process with
  | some p => { process := some p, events := [], spawned := [], signals := [p] }
  | none => { process := none, events := [], spawned := [], signals := [] }

end HamlibRunner

/-- The per-kind parse input of the three list threads: the radio thread
parses `p.stdout + p.stderr`; the rotator and amplifier threads parse
`p.stdout` alone. -/
inductive DaemonKind where
  | radio
  | rotor
  | amp
deriving DecidableEq

/-- The catalog operation `listModels` per daemon kind as the three thread `run` methods do it:
resolve, invoke with the list flag, and parse the captured output. -/
def listModels (k : DaemonKind) (stdout stderr : String) : List HardwareRecord :=
  match k with
  | .radio => parse_rig_list (stdout ++ stderr)
  | .rotor => parse_device_list stdout
  | .amp => parse_device_list stdout

/-- The parser the thread of a given daemon kind uses. -/
def parserFor (k : DaemonKind) : String → List HardwareRecord :=
  match k with
  | .radio => parse_rig_list
  | .rotor => parse_device_list
  | .amp => parse_device_list

/-! ## Theorems for the claims -/

/-- No `stopped` occurs among mapped output events. -/
theorem count_stopped_map_output (lines : List String) :
    (lines.map RunnerEvent.output).count RunnerEvent.stopped = 0 := by
  rw [List.count_eq_zero]
  simp

/-- Claim C1: for every daemon kind, calling `start` while a process handle
already exists is rejected as a no-op that reports "Already running": the
handle is unchanged, no process is spawned (and hence at most one handle —
the single `Option`-valued `self.process` — exists per kind), whatever the
resolver or `Popen` would have produced. -/
theorem claim_c1_start_already_running (p : Nat) (exe_path : Option (List String))
    (spawnOutcome : Option Nat) (exe_name : String) :
    HamlibRunner.start (some p) exe_path spawnOutcome exe_name =
      { process := some p, events := [RunnerEvent.output "Already running"],
        spawned := [], signals := [] } := by
  rfl

/-- Claim C3: the reader loop emits exactly one `stopped` per completed
process lifetime and is the sole clearer of the handle: the reader event
stream counts exactly one `stopped` and ends with the handle cleared, while
`start` emits no `stopped` and `stop` emits nothing at all, changes no
handle state, and only sends a termination signal when a handle exists. -/
theorem claim_c3_single_stopped_per_lifetime :
    (∀ lines : List String,
        (HamlibRunner.readerThread lines).events.count RunnerEvent.stopped = 1 ∧
        (HamlibRunner.readerThread lines).process = none) ∧
    (∀ process : Option Nat,
        (HamlibRunner.stop process).process = process ∧
        (HamlibRunner.stop process).events = []) ∧
    (∀ q : Nat, (HamlibRunner.stop (some q)).signals = [q]) ∧
    (HamlibRunner.stop none).signals = [] ∧
    (∀ (process : Option Nat) (exe_path : Option (List String))
        (spawnOutcome : Option Nat) (exe_name : String),
        (HamlibRunner.start process exe_path spawnOutcome exe_name).events.count
          RunnerEvent.stopped = 0) := by
  refine ⟨fun lines => ⟨?_, rfl⟩, fun process => ?_, fun q => rfl, rfl, ?_⟩
  · simp [HamlibRunner.readerThread, List.count_append, count_stopped_map_output]
  · cases process <;> exact ⟨rfl, rfl⟩
  · intro process exe_path spawnOutcome exe_name
    cases process <;> cases exe_path <;> cases spawnOutcome <;> rfl

/-- Claim C7 counterexample: the rotator list thread parses stdout alone,
so with empty stdout and a well-formed listing on stderr it produces no
records while parsing the combined streams produces one — refuting "for
every daemon kind, listModels parses the combined stdout and stderr". -/
theorem claim_c7_counterexample :
    listModels DaemonKind.rotor "" "Rotator list\n1  SPID  Rot2Prog" = [] ∧
    parserFor DaemonKind.rotor ("" ++ "Rotator list\n1  SPID  Rot2Prog") =
      [{ id := 1, mfg := "SPID", model := "Rot2Prog", label := "SPID - Rot2Prog" }] ∧
    listModels DaemonKind.rotor "" "Rotator list\n1  SPID  Rot2Prog" ≠
      parserFor DaemonKind.rotor ("" ++ "Rotator list\n1  SPID  Rot2Prog") := by
  refine ⟨by decide, by decide, by decide⟩

/-- Claim C7 amended: only the list output of the radio daemon is parsed from the
combined stdout and stderr; the rotator and amplifier threads parse stdout
alone, ignoring stderr entirely. -/
theorem claim_c7_amended :
    (∀ stdout stderr : String,
        listModels DaemonKind.radio stdout stderr = parse_rig_list (stdout ++ stderr)) ∧
    (∀ stdout stderr stderr2 : String,
        listModels DaemonKind.rotor stdout stderr = listModels DaemonKind.rotor stdout stderr2 ∧
        listModels DaemonKind.amp stdout stderr = listModels DaemonKind.amp stdout stderr2 ∧
        listModels DaemonKind.rotor stdout stderr = parse_device_list stdout ∧
        listModels DaemonKind.amp stdout stderr = parse_device_list stdout) := by
  exact ⟨fun _ _ => rfl, fun _ _ _ => ⟨rfl, rfl, rfl, rfl⟩⟩

/-- The skip condition the claims describe for data lines: the
two-or-more-whitespace split yields fewer than three fields, or the first
field is not parseable as an integer. -/
def badDataLine (l : String) : Prop :=
  (splitWs2Str (pyStrip l)).length < 3 ∨
    pyInt? ((splitWs2Str (pyStrip l)).headD "") = none

instance (l : String) : Decidable (badDataLine l) := by
  unfold badDataLine
  infer_instance

/-- A line satisfying the skip condition of the claims contributes no record. -/
theorem parseDataLine_eq_none_of_bad (l : String) (h : badDataLine l) :
    parseDataLine l = none := by
  unfold badDataLine at h
  unfold parseDataLine
  by_cases h0 : pyStrip l = ""
  · simp [h0]
  · rcases h with h | h
    · simp [h0, h]
    · by_cases h3 : (splitWs2Str (pyStrip l)).length < 3
      · simp [h0, h3]
      · simp only [List.headD_eq_head?_getD] at h
        simp [h0, h3, h]

/-- The data start when no line matches the header rule. -/
theorem startIdxWith_of_none (p : String → Bool) (lines : List String)
    (h : lines.findIdx? p = none) : startIdxWith p lines = 0 := by
  unfold startIdxWith
  rw [h]

/-- The data start when the first header match is at index `i`. -/
theorem startIdxWith_of_some (p : String → Bool) (lines : List String) (i : Nat)
    (h : lines.findIdx? p = some i) : startIdxWith p lines = i + 1 := by
  unfold startIdxWith
  rw [h]

/-- Removing a skipped line from the data region (any position at or after
the data start) leaves the parsed records unchanged, for either header
rule. -/
theorem parseLinesWith_skip (p : String → Bool) (A B : List String) (l : String)
    (hb : badDataLine l) (hs : startIdxWith p (A ++ l :: B) ≤ A.length) :
    parseLinesWith p (A ++ l :: B) = parseLinesWith p (A ++ B) := by
  have hnone := parseDataLine_eq_none_of_bad l hb
  unfold parseLinesWith
  cases h : (A ++ l :: B).findIdx? p with
  | none =>
    have hall : ∀ x ∈ A ++ l :: B, p x = false := List.findIdx?_eq_none_iff.mp h
    have h2 : (A ++ B).findIdx? p = none := by
      rw [List.findIdx?_eq_none_iff]
      intro x hx
      apply hall
      rcases List.mem_append.mp hx with h' | h'
      · exact List.mem_append.mpr (Or.inl h')
      · exact List.mem_append.mpr (Or.inr (List.mem_cons_of_mem _ h'))
    rw [startIdxWith_of_none p _ h, startIdxWith_of_none p _ h2]
    simp [List.filterMap_append, List.filterMap_cons, hnone]
  | some i =>
    rw [startIdxWith_of_some p _ i h] at hs
    have hi : i < A.length := by omega
    have hA : A.findIdx? p = some i := by
      rw [List.findIdx?_append] at h
      cases hA : A.findIdx? p with
      | none =>
        rw [hA] at h
        simp only [Option.none_or] at h
        cases hlb : (l :: B).findIdx? p with
        | none => rw [hlb] at h; simp at h
        | some k =>
          rw [hlb] at h
          simp only [Option.map_some'] at h
          have hk : k + A.length = i := Option.some.inj h
          omega
      | some j =>
        rw [hA] at h
        simp only [Option.or] at h
        exact h
    have h2 : (A ++ B).findIdx? p = some i := by
      rw [List.findIdx?_append, hA]
      rfl
    rw [startIdxWith_of_some p _ i (by rw [List.findIdx?_append, hA]; rfl),
      startIdxWith_of_some p _ i h2]
    rw [List.drop_append_of_le_length (by omega),
      List.drop_append_of_le_length (by omega)]
    simp [List.filterMap_append, List.filterMap_cons, hnone]

/-- With no header match anywhere, the data region is the whole line list. -/
theorem parseLinesWith_no_header (p : String → Bool) (lines : List String)
    (h : ∀ l ∈ lines, p l = false) :
    parseLinesWith p lines = lines.filterMap parseDataLine := by
  unfold parseLinesWith
  rw [startIdxWith_of_none p lines (List.findIdx?_eq_none_iff.mpr h)]
  rfl

/-- Claim C4: parsing the capability listing of header line
"Rig #  Mfg    Model" and data line "1  Yaesu  FT-817" yields exactly the
one record with id 1, manufacturer "Yaesu", model "FT-817" and label
"Yaesu - FT-817"; and for every line list, a data line (at or after the
data start) splitting into fewer than three fields or with a non-integer
first field is skipped without affecting the records of the other lines,
under both header rules. -/
theorem claim_c4_parse_and_skip :
    parse_rig_list "Rig #  Mfg    Model\n1  Yaesu  FT-817" =
      [{ id := 1, mfg := "Yaesu", model := "FT-817", label := "Yaesu - FT-817" }] ∧
    (∀ (A B : List String) (l : String), badDataLine l →
      startIdxWith rigHeaderMatch (A ++ l :: B) ≤ A.length →
      parseLinesWith rigHeaderMatch (A ++ l :: B) = parseLinesWith rigHeaderMatch (A ++ B)) ∧
    (∀ (A B : List String) (l : String), badDataLine l →
      startIdxWith devHeaderMatch (A ++ l :: B) ≤ A.length →
      parseLinesWith devHeaderMatch (A ++ l :: B) = parseLinesWith devHeaderMatch (A ++ B)) := by
  refine ⟨by decide, ?_, ?_⟩
  · exact fun A B l hb hs => parseLinesWith_skip rigHeaderMatch A B l hb hs
  · exact fun A B l hb hs => parseLinesWith_skip devHeaderMatch A B l hb hs

/-- Witness for claim C4 at the example of the spec itself: the malformed line
"abc  X  Y" inside the data region is dropped without losing the record of
the well-formed line around it. -/
theorem claim_c4_witness :
    parseLinesWith rigHeaderMatch
        (["Rig #  Mfg    Model"] ++ "abc  X  Y" :: ["1  Yaesu  FT-817"]) =
      parseLinesWith rigHeaderMatch (["Rig #  Mfg    Model"] ++ ["1  Yaesu  FT-817"]) :=
  claim_c4_parse_and_skip.2.1 ["Rig #  Mfg    Model"] ["1  Yaesu  FT-817"] "abc  X  Y"
    (by decide) (by decide)

/-- Claim C10: when no line matches the header marker, the parsers treat
the entire text as the data region from the first line on: the records are
exactly those of all lines, not the empty list. -/
theorem claim_c10_no_header_full_region (text : String) :
    ((∀ l ∈ splitLinesPy text, rigHeaderMatch l = false) →
      parse_rig_list text = (splitLinesPy text).filterMap parseDataLine) ∧
    ((∀ l ∈ splitLinesPy text, devHeaderMatch l = false) →
      parse_device_list text = (splitLinesPy text).filterMap parseDataLine) := by
  constructor
  · intro h
    exact parseLinesWith_no_header rigHeaderMatch (splitLinesPy text) h
  · intro h
    exact parseLinesWith_no_header devHeaderMatch (splitLinesPy text) h

/-- Witness for claim C10: a headerless two-line listing parses to both
records of all lines (in particular, not to the empty list). -/
theorem claim_c10_witness :
    parse_rig_list "1  Yaesu  FT-817\n2  Kenwood  TS-480" =
      (splitLinesPy "1  Yaesu  FT-817\n2  Kenwood  TS-480").filterMap parseDataLine ∧
    parse_rig_list "1  Yaesu  FT-817\n2  Kenwood  TS-480" ≠ [] :=
  ⟨(claim_c10_no_header_full_region "1  Yaesu  FT-817\n2  Kenwood  TS-480").1 (by decide),
    by decide⟩

/-- The function `find?` returns the unique element satisfying the predicate. -/
theorem find?_eq_some_of_unique {α : Type} {p : α → Bool} :
    ∀ (l : List α) (a : α), a ∈ l → p a = true →
      (∀ b ∈ l, p b = true → b = a) → l.find? p = some a
  | [], a, ha, _, _ => absurd ha (List.not_mem_nil a)
  | x :: rest, a, ha, hpa, hu => by
    by_cases hx : p x
    · rw [List.find?_cons_of_pos _ hx]
      rw [hu x (List.mem_cons_self x rest) hx]
    · rw [List.find?_cons_of_neg _ hx]
      have ha' : a ∈ rest := by
        rcases List.mem_cons.mp ha with h | h
        · rw [← h] at hx
          exact absurd hpa hx
        · exact h
      exact find?_eq_some_of_unique rest a ha' hpa
        (fun b hb hpb => hu b (List.mem_cons_of_mem x hb) hpb)

/-- The function `find?` returns the first element satisfying the
predicate: the element after a predicate-free prefix. -/
theorem find?_eq_some_of_first {α : Type} (p : α → Bool) :
    ∀ (pre suf : List α) (a : α), p a = true → (∀ b ∈ pre, p b = false) →
      (pre ++ a :: suf).find? p = some a
  | [], suf, a, hpa, _ => by
    rw [List.nil_append, List.find?_cons_of_pos _ hpa]
  | x :: pre, suf, a, hpa, hpre => by
    have hx : p x = false := hpre x (List.mem_cons_self x pre)
    rw [List.cons_append, List.find?_cons_of_neg _ (by simp [hx])]
    exact find?_eq_some_of_first p pre suf a hpa
      (fun b hb => hpre b (List.mem_cons_of_mem x hb))

/-- A release descriptor with a platform-marked non-zip asset listed before
a plain zip asset: the claimed tier-one rule would pick the marked archive,
the source picks the zip. -/
def relC6 : Release :=
  { assets := [{ name := "hamlib-w64.tar.xz", browser_download_url := "u1" },
               { name := "hamlib.zip", browser_download_url := "u2" }],
    zipball_url := some "zb", tag_name := some "4.6" }

/-- Claim C6 counterexample: on `relC6` the source selects the plain zip
asset, while the claimed ordered preference (platform marker first,
regardless of suffix) selects the marked tarball — refuting the tier-one
rule of the claim as stated. -/
theorem claim_c6_counterexample :
    selectAsset relC6 = some ("u2", "hamlib.zip") ∧
    selectAssetClaim relC6 = some ("u1", "hamlib-w64.tar.xz") ∧
    selectAsset relC6 ≠ selectAssetClaim relC6 := by
  refine ⟨by decide, by decide, by decide⟩

/-- Claim C6 amended: the first preference tier requires both the `.zip`
suffix and the platform marker.  With that amendment the full ordered
preference holds, tier by tier with first-match semantics: the first
platform-marked zip asset is selected when one exists; with zip assets
present but none marked, the first zip asset is selected (not the source
archive); and with no zip asset at all the generic source archive url is
used.  Decompositions `pre ++ x :: suf` state that `x` is the first asset
of its tier in listing order. -/
theorem claim_c6_amended (rel : Release) :
    (∀ (pre suf : List Asset) (a : Asset),
      rel.assets = pre ++ a :: suf →
      (isZipName a.name && hasW64 a.name) = true →
      (∀ b ∈ pre, (isZipName b.name && hasW64 b.name) = false) →
      selectAsset rel = some (a.browser_download_url, a.name)) ∧
    (∀ (pre suf : List Asset) (b : Asset),
      (∀ x ∈ rel.assets, (isZipName x.name && hasW64 x.name) = false) →
      rel.assets = pre ++ b :: suf →
      isZipName b.name = true →
      (∀ x ∈ pre, isZipName x.name = false) →
      selectAsset rel = some (b.browser_download_url, b.name)) ∧
    ((∀ b ∈ rel.assets, isZipName b.name = false) →
      selectAsset rel = rel.zipball_url.map
        (fun u => (u, "hamlib-" ++ rel.tag_name.getD "latest" ++ ".zip"))) := by
  refine ⟨?_, ?_, ?_⟩
  · intro pre suf a heq hpa hpre
    unfold selectAsset
    rw [heq, find?_eq_some_of_first (fun b => isZipName b.name && hasW64 b.name)
      pre suf a hpa hpre]
  · intro pre suf b hmark heq hzb hpre
    unfold selectAsset
    have h1 : rel.assets.find? (fun x => isZipName x.name && hasW64 x.name) = none := by
      rw [List.find?_eq_none]
      intro x hx
      simp [hmark x hx]
    rw [h1, heq, find?_eq_some_of_first (fun x => isZipName x.name) pre suf b hzb hpre]
  · intro hnz
    unfold selectAsset
    have h1 : rel.assets.find? (fun b => isZipName b.name && hasW64 b.name) = none := by
      rw [List.find?_eq_none]
      intro x hx
      simp [hnz x hx]
    have h2 : rel.assets.find? (fun b => isZipName b.name) = none := by
      rw [List.find?_eq_none]
      intro x hx
      simp [hnz x hx]
    rw [h1, h2]
    cases rel.zipball_url <;> rfl

/-- Witness for claim C6 exercising each tier: the first marker-bearing zip
(listed after a plain zip) is selected; with two plain zip assets and no
marked one, the first zip is selected rather than the source archive; and
with only a tarball asset the source archive url is used. -/
theorem claim_c6_witness :
    selectAsset { assets := [{ name := "a.zip", browser_download_url := "ua" },
                             { name := "hamlib-w64.zip", browser_download_url := "uw" },
                             { name := "other-w64.zip", browser_download_url := "u3" }],
                  zipball_url := some "zb", tag_name := some "4.6" } =
      some ("uw", "hamlib-w64.zip") ∧
    selectAsset { assets := [{ name := "doc.tar.gz", browser_download_url := "u0" },
                             { name := "first.zip", browser_download_url := "u1" },
                             { name := "second.zip", browser_download_url := "u2" }],
                  zipball_url := some "zb", tag_name := some "4.6" } =
      some ("u1", "first.zip") ∧
    selectAsset { assets := [{ name := "s.tar.gz", browser_download_url := "u3" }],
                  zipball_url := some "zb", tag_name := some "4.6" } =
      (some "zb").map (fun u => (u, "hamlib-" ++ (some "4.6").getD "latest" ++ ".zip")) := by
  refine ⟨?_, ?_, ?_⟩
  · exact (claim_c6_amended
      { assets := [{ name := "a.zip", browser_download_url := "ua" },
                   { name := "hamlib-w64.zip", browser_download_url := "uw" },
                   { name := "other-w64.zip", browser_download_url := "u3" }],
        zipball_url := some "zb", tag_name := some "4.6" }).1
      [{ name := "a.zip", browser_download_url := "ua" }]
      [{ name := "other-w64.zip", browser_download_url := "u3" }]
      { name := "hamlib-w64.zip", browser_download_url := "uw" }
      (by decide) (by decide) (by decide)
  · exact (claim_c6_amended
      { assets := [{ name := "doc.tar.gz", browser_download_url := "u0" },
                   { name := "first.zip", browser_download_url := "u1" },
                   { name := "second.zip", browser_download_url := "u2" }],
        zipball_url := some "zb", tag_name := some "4.6" }).2.1
      [{ name := "doc.tar.gz", browser_download_url := "u0" }]
      [{ name := "second.zip", browser_download_url := "u2" }]
      { name := "first.zip", browser_download_url := "u1" }
      (by decide) (by decide) (by decide) (by decide)
  · exact (claim_c6_amended
      { assets := [{ name := "s.tar.gz", browser_download_url := "u3" }],
        zipball_url := some "zb", tag_name := some "4.6" }).2.2 (by decide)

/-- Python `max` over a nonempty list returns one of its elements. -/
theorem maxByMtime_mem : ∀ (rest : List (String × PNode)) (c : String × PNode),
    maxByMtime c rest ∈ c :: rest
  | [], c => List.mem_cons_self c []
  | x :: xs, c => by
    unfold maxByMtime
    simp only [List.foldl_cons]
    have ih := maxByMtime_mem xs (if nodeMtime x.2 > nodeMtime c.2 then x else c)
    unfold maxByMtime at ih
    rcases List.mem_cons.mp ih with h | h
    · rw [h]
      by_cases hc : nodeMtime x.2 > nodeMtime c.2
      · simp [hc]
      · simp [hc]
    · exact List.mem_cons_of_mem c (List.mem_cons_of_mem x h)

/-- With duplicate-free sibling names (always true of a real directory),
looking the name of a member entry up yields the node of that entry. -/
theorem childNamed_of_mem (cs : List (String × PNode)) (e : String × PNode)
    (hnd : (cs.map Prod.fst).Nodup) (he : e ∈ cs) :
    childNamed cs e.1 = some e.2 := by
  unfold childNamed
  rw [find?_eq_some_of_unique cs e he (by simp)
    (fun b hb hpb => List.inj_on_of_nodup_map hnd hb he (by simpa using hpb))]
  rfl

/-- Unfolding equation for `pathExistsIn` at a nonempty path. -/
theorem pathExistsIn_cons (cs : List (String × PNode)) (n : String) (p : List String) :
    pathExistsIn cs (n :: p) =
      (match childNamed cs n with
       | none => false
       | some c => pathExists c p) := rfl

/-- The installation root of the C5 counterexample: sub-tree A (older)
holds both the radio and rotator executables, sub-tree B (newer) holds
only the rotator executable. -/
def fsC5 : RootFs := some [
  ("A", .dir 1 [("bin", .dir 0 [("rigctld.exe", .file []), ("rotctld.exe", .file [])])]),
  ("B", .dir 2 [("bin", .dir 0 [("rotctld.exe", .file [])])])]

/-- Claim C5 counterexample: resolving the rotator executable, the claimed
algorithm (candidates keyed on the *named* executable, newest wins) yields
the path under the newer tree B, but the source keys its candidate scan on
`rigctld.exe` and returns the path under the older tree A. -/
theorem claim_c5_counterexample :
    find_exe fsC5 "rotctld.exe" = some ["A", "bin", "rotctld.exe"] ∧
    resolveSpec fsC5 "rotctld.exe" = some ["B", "bin", "rotctld.exe"] ∧
    find_exe fsC5 "rotctld.exe" ≠ resolveSpec fsC5 "rotctld.exe" := by
  refine ⟨by decide, by decide, by decide⟩

/-- Claim C5 amended: the candidate sub-directory scan and the flat-layout
check key on the radio daemon executable `rigctld.exe` as the marker
(falling back to a full recursive walk for any other requested name); for
`rigctld.exe` itself the resolution order is exactly as the claim states —
in particular the most recently modified candidate sub-tree wins — shown by
agreement with the claimed algorithm on every root with duplicate-free
entry names. -/
theorem claim_c5_amended (root : RootFs)
    (hnd : ((root.getD []).map Prod.fst).Nodup) :
    find_exe root "rigctld.exe" = resolveSpec root "rigctld.exe" := by
  cases root with
  | none => rfl
  | some cs =>
    have hnd' : (cs.map Prod.fst).Nodup := hnd
    unfold find_exe resolveSpec get_latest_bin_dir
    cases hf : cs.filter (fun e => pathExists e.2 ["bin", "rigctld.exe"]) with
    | nil =>
      simp only [Option.getD_some, hf]
      by_cases hb : pathExistsIn cs ["bin", "rigctld.exe"]
      · have hb2 : pathExistsIn cs (["bin"] ++ ["rigctld.exe"]) = true := hb
        simp [hb, hb2]
      · simp [hb]
    | cons c rest =>
      have hmem : maxByMtime c rest ∈ c :: rest := maxByMtime_mem rest c
      rw [← hf] at hmem
      have hmem' := List.mem_filter.mp hmem
      have hcn : childNamed cs (maxByMtime c rest).1 = some (maxByMtime c rest).2 :=
        childNamed_of_mem cs (maxByMtime c rest) hnd' hmem'.1
      have hpe : pathExistsIn cs ([(maxByMtime c rest).1, "bin"] ++ ["rigctld.exe"]) = true := by
        have he : [(maxByMtime c rest).1, "bin"] ++ ["rigctld.exe"] =
            (maxByMtime c rest).1 :: ["bin", "rigctld.exe"] := rfl
        rw [he, pathExistsIn_cons, hcn]
        exact hmem'.2
      have hpe2 : pathExistsIn cs [(maxByMtime c rest).1, "bin", "rigctld.exe"] = true := hpe
      simp only [Option.getD_some, hf]
      simp [hpe2]

/-- Witness for claim C5 at the counterexample root (which has
duplicate-free names): for the radio executable the source and the claimed
algorithm agree. -/
theorem claim_c5_witness :
    find_exe fsC5 "rigctld.exe" = resolveSpec fsC5 "rigctld.exe" :=
  claim_c5_amended fsC5 (by decide)

/-! Facts about `writeDest` needed for the installer claims: writing the
destination file touches no differently-named entry, leaves a file at the
destination name, and preserves the view the resolver has of the tree. -/

/-- Writing the destination leaves the lookup of every other name unchanged. -/
theorem writeDest_childNamed_ne : ∀ (cs cs2 : List (String × PNode)) (n : String)
    (p : List Nat), writeDest cs n p = some cs2 →
    ∀ m, m ≠ n → childNamed cs2 m = childNamed cs m
  | [], cs2, n, p, h, m, hm => by
    simp only [writeDest] at h
    injection h with h2
    subst h2
    have hnm : (n == m) = false := beq_eq_false_iff_ne.mpr (Ne.symm hm)
    simp [childNamed, List.find?, hnm]
  | (n2, node) :: rest, cs2, n, p, h, m, hm => by
    simp only [writeDest] at h
    by_cases hn : n2 == n
    · rw [if_pos hn] at h
      cases node with
      | dir mt kids => exact Option.noConfusion h
      | file old =>
        injection h with h2
        subst h2
        have hnm : (n2 == m) = false := by
          rw [beq_eq_false_iff_ne]
          intro he
          exact hm (he.symm.trans (beq_iff_eq.mp hn))
        simp [childNamed, List.find?, hnm]
    · rw [if_neg hn] at h
      cases hw : writeDest rest n p with
      | none => rw [hw] at h; exact Option.noConfusion h
      | some cs2' =>
        rw [hw] at h
        simp only [Option.map_some'] at h
        injection h with h2
        subst h2
        by_cases hhm : n2 == m
        · simp [childNamed, List.find?, hhm]
        · have hf : (n2 == m) = false := by simpa using hhm
          simp only [childNamed, List.find?, hf]
          exact writeDest_childNamed_ne rest cs2' n p hw m hm

/-- After a successful write, the destination name holds the written file. -/
theorem writeDest_childNamed_self : ∀ (cs cs2 : List (String × PNode)) (n : String)
    (p : List Nat), writeDest cs n p = some cs2 →
    childNamed cs2 n = some (.file p)
  | [], cs2, n, p, h => by
    simp only [writeDest] at h
    injection h with h2
    subst h2
    simp [childNamed, List.find?]
  | (n2, node) :: rest, cs2, n, p, h => by
    simp only [writeDest] at h
    by_cases hn : n2 == n
    · rw [if_pos hn] at h
      cases node with
      | dir mt kids => exact Option.noConfusion h
      | file old =>
        injection h with h2
        subst h2
        simp [childNamed, List.find?, hn]
    · rw [if_neg hn] at h
      cases hw : writeDest rest n p with
      | none => rw [hw] at h; exact Option.noConfusion h
      | some cs2' =>
        rw [hw] at h
        simp only [Option.map_some'] at h
        injection h with h2
        subst h2
        have hf : (n2 == n) = false := by simpa using hn
        simp only [childNamed, List.find?, hf]
        exact writeDest_childNamed_self rest cs2' n p hw

/-- Before a successful write, the destination name held a file or nothing
(a directory there makes the write fail). -/
theorem writeDest_childNamed_old : ∀ (cs cs2 : List (String × PNode)) (n : String)
    (p : List Nat), writeDest cs n p = some cs2 →
    childNamed cs n = none ∨ ∃ old, childNamed cs n = some (.file old)
  | [], cs2, n, p, _ => Or.inl (by simp [childNamed, List.find?])
  | (n2, node) :: rest, cs2, n, p, h => by
    simp only [writeDest] at h
    by_cases hn : n2 == n
    · rw [if_pos hn] at h
      cases node with
      | dir mt kids => exact Option.noConfusion h
      | file old =>
        refine Or.inr ⟨old, ?_⟩
        simp [childNamed, List.find?, hn]
    · rw [if_neg hn] at h
      cases hw : writeDest rest n p with
      | none => rw [hw] at h; exact Option.noConfusion h
      | some cs2' =>
        have hf : (n2 == n) = false := by simpa using hn
        simp only [childNamed, List.find?, hf]
        exact writeDest_childNamed_old rest cs2' n p hw

/-- A file node never contains a nonempty path. -/
theorem pathExists_file (c : List Nat) (x : String) (xs : List String) :
    pathExists (.file c) (x :: xs) = false := rfl

/-- Writing the destination does not change existence of any path at least
two segments deep (the written node is a file, which holds no paths). -/
theorem writeDest_pathExistsIn (cs cs2 : List (String × PNode)) (n : String)
    (p : List Nat) (h : writeDest cs n p = some cs2) (m : String) (q : List String)
    (hq : q ≠ []) : pathExistsIn cs2 (m :: q) = pathExistsIn cs (m :: q) := by
  obtain ⟨x, xs, rfl⟩ : ∃ x xs, q = x :: xs := by
    cases q with
    | nil => exact absurd rfl hq
    | cons x xs => exact ⟨x, xs, rfl⟩
  by_cases hm : m = n
  · subst hm
    rw [pathExistsIn_cons, pathExistsIn_cons, writeDest_childNamed_self cs cs2 m p h]
    rcases writeDest_childNamed_old cs cs2 m p h with h0 | ⟨old, h0⟩ <;> rw [h0] <;> rfl
  · rw [pathExistsIn_cons, pathExistsIn_cons, writeDest_childNamed_ne cs cs2 n p h m hm]

/-- Writing the destination does not change the candidate list of
`get_latest_bin_dir` (the written file satisfies no `bin/` path). -/
theorem writeDest_filter_marker : ∀ (cs cs2 : List (String × PNode)) (n : String)
    (p : List Nat), writeDest cs n p = some cs2 →
    cs2.filter (fun e => pathExists e.2 ["bin", "rigctld.exe"]) =
      cs.filter (fun e => pathExists e.2 ["bin", "rigctld.exe"])
  | [], cs2, n, p, h => by
    simp only [writeDest] at h
    injection h with h2
    subst h2
    rfl
  | (n2, node) :: rest, cs2, n, p, h => by
    simp only [writeDest] at h
    by_cases hn : n2 == n
    · rw [if_pos hn] at h
      cases node with
      | dir mt kids => exact Option.noConfusion h
      | file old =>
        injection h with h2
        subst h2
        rfl
    · rw [if_neg hn] at h
      cases hw : writeDest rest n p with
      | none => rw [hw] at h; exact Option.noConfusion h
      | some cs2' =>
        rw [hw] at h
        simp only [Option.map_some'] at h
        injection h with h2
        subst h2
        simp only [List.filter]
        rw [writeDest_filter_marker rest cs2' n p hw]

/-- Writing the destination file leaves the recursive walk over the child
entries unchanged (a file entry contributes nothing to the walk). -/
theorem writeDest_walkKids : ∀ (cs cs2 : List (String × PNode)) (n : String)
    (p : List Nat), writeDest cs n p = some cs2 → ∀ (exe : String) (base : List String),
    walkKids exe base cs2 = walkKids exe base cs
  | [], cs2, n, p, h, exe, base => by
    simp only [writeDest] at h
    injection h with h2
    subst h2
    rfl
  | (n2, node) :: rest, cs2, n, p, h, exe, base => by
    simp only [writeDest] at h
    by_cases hn : n2 == n
    · rw [if_pos hn] at h
      cases node with
      | dir mt kids => exact Option.noConfusion h
      | file old =>
        injection h with h2
        subst h2
        rfl
    · rw [if_neg hn] at h
      cases hw : writeDest rest n p with
      | none => rw [hw] at h; exact Option.noConfusion h
      | some cs2' =>
        rw [hw] at h
        simp only [Option.map_some'] at h
        injection h with h2
        subst h2
        show (match walkNode exe (base ++ [n2]) node with
              | some r => some r
              | none => walkKids exe base cs2') =
          (match walkNode exe (base ++ [n2]) node with
              | some r => some r
              | none => walkKids exe base rest)
        cases walkNode exe (base ++ [n2]) node with
        | some r => rfl
        | none => exact writeDest_walkKids rest cs2' n p hw exe base

/-- Writing the destination file preserves presence of a file of any given
name among the immediate entries. -/
theorem writeDest_any_isFileNamed : ∀ (cs cs2 : List (String × PNode)) (n : String)
    (p : List Nat), writeDest cs n p = some cs2 → ∀ exe : String,
    cs.any (isFileNamed exe) = true → cs2.any (isFileNamed exe) = true
  | [], cs2, n, p, h, exe, ha => by simp at ha
  | (n2, node) :: rest, cs2, n, p, h, exe, ha => by
    simp only [writeDest] at h
    by_cases hn : n2 == n
    · rw [if_pos hn] at h
      cases node with
      | dir mt kids => exact Option.noConfusion h
      | file old =>
        injection h with h2
        subst h2
        simp only [List.any_cons, Bool.or_eq_true] at ha ⊢
        rcases ha with ha | ha
        · left
          have hx : (n2 == exe) = true := by simpa [isFileNamed] using ha
          simp [isFileNamed, hx]
        · right
          exact ha
    · rw [if_neg hn] at h
      cases hw : writeDest rest n p with
      | none => rw [hw] at h; exact Option.noConfusion h
      | some cs2' =>
        rw [hw] at h
        simp only [Option.map_some'] at h
        injection h with h2
        subst h2
        simp only [List.any_cons, Bool.or_eq_true] at ha ⊢
        rcases ha with ha | ha
        · left
          exact ha
        · right
          exact writeDest_any_isFileNamed rest cs2' n p hw exe ha

/-- Unfolding equation for `walkRoot` over an existing root. -/
theorem walkRoot_some (cs : List (String × PNode)) (exe : String) :
    walkRoot (some cs) exe =
      if cs.any (isFileNamed exe) = true then some [exe] else walkKids exe [] cs := rfl

/-- Unfolding equation for `get_latest_bin_dir` over an existing root. -/
theorem get_latest_bin_dir_some (cs : List (String × PNode)) :
    get_latest_bin_dir (some cs) =
      (match cs.filter (fun e => pathExists e.2 ["bin", "rigctld.exe"]) with
       | c :: rest => some [(maxByMtime c rest).1, "bin"]
       | [] =>
         if pathExistsIn cs ["bin", "rigctld.exe"] = true then some ["bin"]
         else none) := rfl

/-- Unfolding equation for `find_exe` over an existing root. -/
theorem find_exe_some (cs : List (String × PNode)) (exe : String) :
    find_exe (some cs) exe =
      (match get_latest_bin_dir (some cs) with
       | some bd =>
         if pathExistsIn cs (bd ++ [exe]) = true then some (bd ++ [exe])
         else walkRoot (some cs) exe
       | none => walkRoot (some cs) exe) := rfl

/-- Writing the destination preserves walk success over the root. -/
theorem writeDest_walkRoot_isSome (cs cs2 : List (String × PNode)) (n : String)
    (p : List Nat) (h : writeDest cs n p = some cs2) (exe : String)
    (hs : (walkRoot (some cs) exe).isSome = true) :
    (walkRoot (some cs2) exe).isSome = true := by
  rw [walkRoot_some] at hs
  rw [walkRoot_some]
  by_cases ha : cs.any (isFileNamed exe) = true
  · simp [writeDest_any_isFileNamed cs cs2 n p h exe ha]
  · rw [if_neg ha] at hs
    by_cases ha2 : cs2.any (isFileNamed exe) = true
    · simp [ha2]
    · rw [if_neg ha2, writeDest_walkKids cs cs2 n p h exe []]
      exact hs

/-- A resolved bin directory is never the empty path. -/
theorem get_latest_bin_dir_ne_nil (cs : List (String × PNode)) (bd : List String)
    (h : get_latest_bin_dir (some cs) = some bd) : bd ≠ [] := by
  rw [get_latest_bin_dir_some] at h
  cases hf : cs.filter (fun e => pathExists e.2 ["bin", "rigctld.exe"]) with
  | cons c rest =>
    rw [hf] at h
    injection h with h2
    rw [← h2]
    simp
  | nil =>
    rw [hf] at h
    by_cases hb : pathExistsIn cs ["bin", "rigctld.exe"] = true
    · rw [if_pos hb] at h
      injection h with h2
      rw [← h2]
      simp
    · rw [if_neg hb] at h
      exact Option.noConfusion h

/-- Writing the destination leaves `get_latest_bin_dir` unchanged. -/
theorem writeDest_gl (cs cs2 : List (String × PNode)) (n : String) (p : List Nat)
    (h : writeDest cs n p = some cs2) :
    get_latest_bin_dir (some cs2) = get_latest_bin_dir (some cs) := by
  rw [get_latest_bin_dir_some, get_latest_bin_dir_some,
    writeDest_filter_marker cs cs2 n p h]
  cases hf : cs.filter (fun e => pathExists e.2 ["bin", "rigctld.exe"]) with
  | cons c rest => rfl
  | nil =>
    rw [writeDest_pathExistsIn cs cs2 n p h "bin" ["rigctld.exe"] (by simp)]

/-- Writing the destination preserves resolvability of any executable. -/
theorem writeDest_find_exe_isSome (cs cs2 : List (String × PNode)) (n : String)
    (p : List Nat) (h : writeDest cs n p = some cs2) (exe : String)
    (hs : (find_exe (some cs) exe).isSome = true) :
    (find_exe (some cs2) exe).isSome = true := by
  rw [find_exe_some] at hs
  rw [find_exe_some, writeDest_gl cs cs2 n p h]
  cases hg : get_latest_bin_dir (some cs) with
  | none =>
    rw [hg] at hs
    exact writeDest_walkRoot_isSome cs cs2 n p h exe hs
  | some bd =>
    rw [hg] at hs
    obtain ⟨b0, brest, rfl⟩ : ∃ b0 brest, bd = b0 :: brest := by
      cases bd with
      | nil => exact absurd rfl (get_latest_bin_dir_ne_nil cs [] hg)
      | cons b0 brest => exact ⟨b0, brest, rfl⟩
    have hpi : pathExistsIn cs2 ((b0 :: brest) ++ [exe]) =
        pathExistsIn cs ((b0 :: brest) ++ [exe]) :=
      writeDest_pathExistsIn cs cs2 n p h b0 (brest ++ [exe]) (by simp)
    have hs2 : (if pathExistsIn cs ((b0 :: brest) ++ [exe]) = true
        then some ((b0 :: brest) ++ [exe])
        else walkRoot (some cs) exe).isSome = true := hs
    show (if pathExistsIn cs2 ((b0 :: brest) ++ [exe]) = true
        then some ((b0 :: brest) ++ [exe])
        else walkRoot (some cs2) exe).isSome = true
    by_cases hc : pathExistsIn cs ((b0 :: brest) ++ [exe]) = true
    · rw [hpi, if_pos hc]
      rfl
    · rw [if_neg hc] at hs2
      rw [hpi, if_neg hc]
      exact writeDest_walkRoot_isSome cs cs2 n p h exe hs2

/-- After the clear step keeps only destination-named entries, the
destination name still holds the downloaded file. -/
theorem writeDest_filter_dest : ∀ (cs cs2 : List (String × PNode)) (n : String)
    (p : List Nat), writeDest cs n p = some cs2 →
    childNamed (cs2.filter (fun e => e.1 == n)) n = some (.file p)
  | [], cs2, n, p, h => by
    simp only [writeDest] at h
    injection h with h2
    subst h2
    simp [childNamed, List.find?, List.filter]
  | (n2, node) :: rest, cs2, n, p, h => by
    simp only [writeDest] at h
    by_cases hn : n2 == n
    · rw [if_pos hn] at h
      cases node with
      | dir mt kids => exact Option.noConfusion h
      | file old =>
        injection h with h2
        subst h2
        simp [childNamed, List.find?, List.filter, hn]
    · rw [if_neg hn] at h
      cases hw : writeDest rest n p with
      | none => rw [hw] at h; exact Option.noConfusion h
      | some cs2' =>
        rw [hw] at h
        simp only [Option.map_some'] at h
        injection h with h2
        subst h2
        have hf : (n2 == n) = false := by simpa using hn
        simp only [List.filter, hf]
        exact writeDest_filter_dest rest cs2' n p hw

/-- No entry is cleared before the download has completed: scans the trace
and requires that no clear step precedes the download-completed step. -/
def clearOnlyAfterDownload : List InstallAction → Bool
  | [] => true
  | .downloadCompleted :: _ => true
  | .clearedEntry _ :: _ => false
  | _ :: rest => clearOnlyAfterDownload rest

/-- Unfolding equation: a failed-before-open install changes nothing. -/
theorem installFromAsset_failBeforeOpen (root : RootFs) (a : String)
    (ef : List Nat → Option (List (String × PNode))) :
    installFromAsset root a .failBeforeOpen ef =
      { fs := root.getD [], ok := false, trace := [] } := rfl

/-- Unfolding equation for an install whose download fails mid-stream. -/
theorem installFromAsset_failAfter (root : RootFs) (a : String) (p : List Nat)
    (ef : List Nat → Option (List (String × PNode))) :
    installFromAsset root a (.failAfter p) ef =
      (match writeDest (root.getD []) a p with
       | none => { fs := root.getD [], ok := false, trace := [] }
       | some cs2 =>
         { fs := cs2, ok := false, trace := [.wroteDest a p] }) := rfl

/-- Unfolding equation for an install whose download completes. -/
theorem installFromAsset_ok (root : RootFs) (a : String) (content : List Nat)
    (ef : List Nat → Option (List (String × PNode))) :
    installFromAsset root a (.ok content) ef =
      (match writeDest (root.getD []) a content with
       | none => { fs := root.getD [], ok := false, trace := [] }
       | some cs2 =>
         extractPhase (cs2.filter (fun e => e.1 == a)) a
           (.wroteDest a content :: .downloadCompleted ::
             ((cs2.filter (fun e => !(e.1 == a))).map (fun e => e.1)).map .clearedEntry)
           ef) := rfl

/-- Unfolding `extractPhase` once the bytes of the destination have been identified. -/
theorem extractPhase_read (cs3 : List (String × PNode)) (a : String)
    (tr : List InstallAction) (ef : List Nat → Option (List (String × PNode)))
    (c : List Nat) (hcd : childNamed cs3 a = some (.file c)) :
    extractPhase cs3 a tr ef =
      (match ef c with
       | none => { fs := cs3, ok := false, trace := tr }
       | some entries =>
         { fs := mergeEntries cs3 entries, ok := true, trace := tr ++ [.extracted c] }) := by
  unfold extractPhase
  rw [hcd]

/-- The extraction step appends at most one extraction action to the
accumulated trace. -/
theorem extractPhase_trace (cs3 : List (String × PNode)) (a : String)
    (tr : List InstallAction) (ef : List Nat → Option (List (String × PNode))) :
    (extractPhase cs3 a tr ef).trace = tr ∨
      ∃ c, (extractPhase cs3 a tr ef).trace = tr ++ [.extracted c] := by
  cases hc : childNamed cs3 a with
  | none =>
    left
    unfold extractPhase
    rw [hc]
  | some node =>
    cases node with
    | dir mt kids =>
      left
      unfold extractPhase
      rw [hc]
    | file c =>
      rw [extractPhase_read cs3 a tr ef c hc]
      cases ef c with
      | none => exact Or.inl rfl
      | some entries => exact Or.inr ⟨c, rfl⟩

/-- Resolution via `find_exe` over a missing root finds nothing. -/
theorem find_exe_none (exe : String) : find_exe none exe = none := rfl


/-- In every install run, clear steps happen only after the download has
completed. -/
theorem installFromAsset_clearOnlyAfterDownload (root : RootFs) (a : String)
    (ef : List Nat → Option (List (String × PNode))) (dl : DlOutcome) :
    clearOnlyAfterDownload (installFromAsset root a dl ef).trace = true := by
  cases dl with
  | failBeforeOpen => rfl
  | failAfter p =>
    rw [installFromAsset_failAfter]
    cases writeDest (root.getD []) a p <;> rfl
  | ok content =>
    rw [installFromAsset_ok]
    cases writeDest (root.getD []) a content with
    | none => rfl
    | some cs2 =>
      show clearOnlyAfterDownload (extractPhase (cs2.filter (fun e => e.1 == a)) a
        (.wroteDest a content :: .downloadCompleted ::
          ((cs2.filter (fun e => !(e.1 == a))).map (fun e => e.1)).map .clearedEntry)
        ef).trace = true
      rcases extractPhase_trace (cs2.filter (fun e => e.1 == a)) a
        (.wroteDest a content :: .downloadCompleted ::
          ((cs2.filter (fun e => !(e.1 == a))).map (fun e => e.1)).map .clearedEntry)
        ef with h | ⟨c, h⟩ <;> rw [h] <;> rfl

/-- The installation root of the C2 counterexample: a previous install left
the archive `hamlib-w64.zip` and an extracted tree holding the radio
executable. -/
def fsC2 : RootFs := some [
  ("hamlib-w64.zip", .file [1, 2, 3]),
  ("h-4.5", .dir 5 [("bin", .dir 0 [("rigctld.exe", .file [7])])])]

/-- Claim C2 counterexample: a download of an asset named like the leftover
archive that fails mid-stream has already overwritten that entry — an entry
of the previously installed tree is modified even though the attempt failed
at the download step, refuting "no entry of the previously installed tree
is removed or modified". -/
theorem claim_c2_counterexample :
    (installFromAsset fsC2 "hamlib-w64.zip" (.failAfter [9]) (fun _ => none)).ok = false ∧
    childNamed (installFromAsset fsC2 "hamlib-w64.zip" (.failAfter [9]) (fun _ => none)).fs
        "hamlib-w64.zip" = some (PNode.file [9]) ∧
    childNamed (fsC2.getD []) "hamlib-w64.zip" = some (PNode.file [1, 2, 3]) ∧
    (some (PNode.file [9]) : Option PNode) ≠ some (PNode.file [1, 2, 3]) := by
  refine ⟨by decide, by decide, by decide, by decide⟩

/-- Claim C2 amended: for every install attempt that fails during the
download step, the attempt reports failure; no entry *other than the
destination archive path* is removed or modified (the partial archive may
create or overwrite the destination-named entry); no clear step runs (and
in every run clear steps come only after the download completed); and every
previously resolvable executable is still resolvable afterwards. -/
theorem claim_c2_amended (root : RootFs) (assetName : String) (dl : DlOutcome)
    (extractFn : List Nat → Option (List (String × PNode))) (exe : String)
    (hdl : ∀ c, dl ≠ DlOutcome.ok c) :
    (installFromAsset root assetName dl extractFn).ok = false ∧
    (∀ m, m ≠ assetName →
      childNamed (installFromAsset root assetName dl extractFn).fs m =
        childNamed (root.getD []) m) ∧
    (∀ m, InstallAction.clearedEntry m ∉
      (installFromAsset root assetName dl extractFn).trace) ∧
    ((find_exe root exe).isSome = true →
      (find_exe (some (installFromAsset root assetName dl extractFn).fs) exe).isSome = true) ∧
    (∀ dl2, clearOnlyAfterDownload (installFromAsset root assetName dl2 extractFn).trace
      = true) := by
  cases dl with
  | ok c => exact absurd rfl (hdl c)
  | failBeforeOpen =>
    refine ⟨rfl, fun m _ => rfl, fun m => by simp [installFromAsset_failBeforeOpen], ?_,
      fun dl2 => installFromAsset_clearOnlyAfterDownload root assetName extractFn dl2⟩
    intro hs
    cases root with
    | none =>
      rw [find_exe_none] at hs
      simp at hs
    | some cs => exact hs
  | failAfter p =>
    cases hw : writeDest (root.getD []) assetName p with
    | none =>
      have hr : installFromAsset root assetName (.failAfter p) extractFn =
          { fs := root.getD [], ok := false, trace := [] } := by
        rw [installFromAsset_failAfter, hw]
      refine ⟨by rw [hr], fun m _ => by rw [hr], fun m => by rw [hr]; simp, ?_,
        fun dl2 => installFromAsset_clearOnlyAfterDownload root assetName extractFn dl2⟩
      intro hs
      rw [hr]
      cases root with
      | none =>
        rw [find_exe_none] at hs
        simp at hs
      | some cs => exact hs
    | some cs2 =>
      have hr : installFromAsset root assetName (.failAfter p) extractFn =
          { fs := cs2, ok := false, trace := [.wroteDest assetName p] } := by
        rw [installFromAsset_failAfter, hw]
      refine ⟨by rw [hr],
        fun m hm => by
          rw [hr]
          exact writeDest_childNamed_ne (root.getD []) cs2 assetName p hw m hm,
        fun m => by rw [hr]; simp, ?_,
        fun dl2 => installFromAsset_clearOnlyAfterDownload root assetName extractFn dl2⟩
      intro hs
      rw [hr]
      cases root with
      | none =>
        rw [find_exe_none] at hs
        simp at hs
      | some cs =>
        exact writeDest_find_exe_isSome cs cs2 assetName p hw exe hs

/-- Witness for claim C2 at the counterexample root: the failed attempt
reports failure, leaves the entry of the extracted tree untouched, keeps the
radio executable resolvable, and no run clears entries before its download
completes. -/
theorem claim_c2_witness :
    (installFromAsset fsC2 "hamlib-w64.zip" (.failAfter [9]) (fun _ => none)).ok = false ∧
    childNamed (installFromAsset fsC2 "hamlib-w64.zip" (.failAfter [9]) (fun _ => none)).fs
        "h-4.5" = childNamed (fsC2.getD []) "h-4.5" ∧
    (find_exe (some (installFromAsset fsC2 "hamlib-w64.zip" (.failAfter [9])
        (fun _ => none)).fs) "rigctld.exe").isSome = true ∧
    clearOnlyAfterDownload
      (installFromAsset fsC2 "hamlib-w64.zip" (.ok [7]) (fun _ => none)).trace = true := by
  have h := claim_c2_amended fsC2 "hamlib-w64.zip" (.failAfter [9]) (fun _ => none)
    "rigctld.exe" (fun c hc => DlOutcome.noConfusion hc)
  exact ⟨h.1, h.2.1 "h-4.5" (by decide), h.2.2.2.1 (by decide), h.2.2.2.2 (.ok [7])⟩

/-- Claim C8 counterexample: a mid-stream download failure returns with the
partially written archive still present in the root — refuting "the
partially written archive file is removed before the install call
returns". -/
theorem claim_c8_counterexample :
    (installFromAsset (some []) "x.zip" (.failAfter [1]) (fun _ => none)).ok = false ∧
    childNamed (installFromAsset (some []) "x.zip" (.failAfter [1]) (fun _ => none)).fs
      "x.zip" = some (PNode.file [1]) := by
  refine ⟨by decide, by decide⟩

/-- Claim C8 amended: the partial file is left in place, but a failed
download aborts the attempt before extraction, so no extraction step runs
in a failed attempt; and when an attempt does extract, it extracts exactly
the fully downloaded archive content. -/
theorem claim_c8_amended (root : RootFs) (assetName : String)
    (extractFn : List Nat → Option (List (String × PNode))) :
    (∀ p c : List Nat, InstallAction.extracted c ∉
      (installFromAsset root assetName (.failAfter p) extractFn).trace) ∧
    (∀ c : List Nat, InstallAction.extracted c ∉
      (installFromAsset root assetName .failBeforeOpen extractFn).trace) ∧
    (∀ content c : List Nat,
      InstallAction.extracted c ∈
        (installFromAsset root assetName (.ok content) extractFn).trace →
      c = content) := by
  refine ⟨?_, ?_, ?_⟩
  · intro p c
    rw [installFromAsset_failAfter]
    cases writeDest (root.getD []) assetName p <;> simp
  · intro c
    rw [installFromAsset_failBeforeOpen]
    simp
  · intro content c hm
    rw [installFromAsset_ok] at hm
    cases hw : writeDest (root.getD []) assetName content with
    | none =>
      rw [hw] at hm
      simp at hm
    | some cs2 =>
      rw [hw] at hm
      have hm2 : InstallAction.extracted c ∈
          (extractPhase (cs2.filter (fun e => e.1 == assetName)) assetName
            (.wroteDest assetName content :: .downloadCompleted ::
              ((cs2.filter (fun e => !(e.1 == assetName))).map (fun e => e.1)).map
                .clearedEntry)
            extractFn).trace := hm
      rw [extractPhase_read (cs2.filter (fun e => e.1 == assetName)) assetName _ extractFn
        content (writeDest_filter_dest (root.getD []) cs2 assetName content hw)] at hm2
      cases he : extractFn content with
      | none =>
        rw [he] at hm2
        simp at hm2
      | some entries =>
        rw [he] at hm2
        simp at hm2
        exact hm2

/-- Witness for claim C8: no extraction step appears in a concrete failed
run, and the concrete completed run extracts the downloaded content. -/
theorem claim_c8_witness :
    InstallAction.extracted [5] ∉
      (installFromAsset (some []) "w.zip" (.failAfter [1])
        (fun _ => some ([] : List (String × PNode)))).trace ∧
    ([7] : List Nat) = [7] :=
  ⟨(claim_c8_amended (some []) "w.zip" (fun _ => some [])).1 [1] [5],
   (claim_c8_amended (some []) "w.zip" (fun _ => some [])).2.2 [7] [7] (by decide)⟩

/-- The C9 counterexample run: the archive extracts without error but its
layout holds no daemon executable. -/
def installC9 : InstallResult :=
  installFromAsset (some []) "x.zip" (.ok [7]) (fun _ => some [("docs", .dir 0 [])])

/-- Claim C9 counterexample: extraction completes, no daemon executable is
resolvable afterwards, and the install still reports success — refuting
"the install reports VerificationFailed (not success) when that resolution
finds no executable". -/
theorem claim_c9_counterexample :
    installC9.ok = true ∧
    find_exe (some installC9.fs) "rigctld.exe" = none ∧
    find_exe (some installC9.fs) "rotctld.exe" = none ∧
    find_exe (some installC9.fs) "ampctld.exe" = none := by
  refine ⟨by decide, by decide, by decide, by decide⟩

/-- Claim C9 amended: the install performs no post-extraction verification:
whenever the download is written and the archive extracts without error,
the install reports success, regardless of whether any executable resolves
afterwards. -/
theorem claim_c9_amended (root : RootFs) (assetName : String) (content : List Nat)
    (extractFn : List Nat → Option (List (String × PNode)))
    (cs2 entries : List (String × PNode))
    (hw : writeDest (root.getD []) assetName content = some cs2)
    (he : extractFn content = some entries) :
    (installFromAsset root assetName (.ok content) extractFn).ok = true := by
  rw [installFromAsset_ok, hw]
  show (extractPhase (cs2.filter (fun e => e.1 == assetName)) assetName
    (.wroteDest assetName content :: .downloadCompleted ::
      ((cs2.filter (fun e => !(e.1 == assetName))).map (fun e => e.1)).map .clearedEntry)
    extractFn).ok = true
  rw [extractPhase_read (cs2.filter (fun e => e.1 == assetName)) assetName _ extractFn
    content (writeDest_filter_dest (root.getD []) cs2 assetName content hw), he]

/-- Witness for claim C9: a concrete completed install reports success. -/
theorem claim_c9_witness :
    (installFromAsset (some []) "y.zip" (.ok [7])
      (fun _ => some ([] : List (String × PNode)))).ok = true :=
  claim_c9_amended (some []) "y.zip" [7] (fun _ => some []) [("y.zip", .file [7])] []
    (by decide) rfl

end HamlibUI
